import Mathlib

/-!
Verification of the PySM emission-model core (thermal dust and spinning dust).

This file gives a shallow embedding, over the real numbers, of
`pysm/component_models/galactic/dust.py` and `pysm/models/spdust.py`:

* pure numerical functions (`mbb_sed`, `blackbody_ratio`, `frequency_decorr_model`,
  `invert_safe`, `get_decorrelation_matrix`, `np.interp`, the spinning-dust kernels)
  become Lean functions on `ℝ`, `List ℝ` and `Matrix (Fin n) (Fin n) ℝ`;
* `np.linalg.eigh` is modelled through the Mathlib spectral theorem for real
  symmetric matrices (the numpy `eigh` routine reads only the lower triangle, which the
  model reproduces with `lowerSym`);
* the IEEE-754 special values produced by a float division by zero, which matter
  for the `correlation_length == 0` behaviour, are modelled by the small type
  `FVal` (finite value, plus or minus infinity, NaN);
* Python-level failures (validation errors, attribute access on a missing
  attribute, numpy shape errors) are modelled with `Except PyErr`.

Theorems after the definitions settle the behavioural claims about the models.
-/

open scoped Classical

open Matrix

namespace PySM

/-- Python-level errors surfaced by the modelled code paths. -/
inductive PyErr
  | invalidFrequencyInput
  | attributeError
  | assertionError
  | valueError
  deriving DecidableEq

/-- Modelled from the spec: `check_freq_input` (defined in the absent
`pysm/component_models/template.py`) normalizes the frequency argument to a 1-D
sequence of length ≥ 1 and fails with `InvalidFrequencyInput` on empty or
non-positive input. -/
noncomputable def check_freq_input (freqs : List ℝ) : Except PyErr (List ℝ) :=
  if freqs = [] then .error .invalidFrequencyInput
  else if ∀ f ∈ freqs, 0 < f then .ok freqs
  else .error .invalidFrequencyInput

/-- Planck constant (SI), as used by the external `blackbody_nu` collaborator. -/
noncomputable def hPlanck : ℝ := 6.62607015e-34

/-- Speed of light (SI). -/
noncomputable def cLight : ℝ := 2.99792458e8

/-- Boltzmann constant (SI). -/
noncomputable def kBoltzmann : ℝ := 1.380649e-23

/-- Planck spectral radiance `B_ν(T) = (2 h ν³ / c²) / (exp(h ν / (k T)) - 1)`,
the external `astropy.modeling.blackbody.blackbody_nu` collaborator. -/
noncomputable def blackbody_nu (freq temp : ℝ) : ℝ :=
  2 * hPlanck * freq ^ 3 / cLight ^ 2 /
    (Real.exp (hPlanck * freq / (kBoltzmann * temp)) - 1)

/-- Function `blackbody_ratio` from `dust.py`: flux ratio between two frequencies for a
blackbody at temperature `temp`. -/
noncomputable def blackbody_ratio (freq_to freq_from temp : ℝ) : ℝ :=
  blackbody_nu freq_to temp / blackbody_nu freq_from temp

/-- Function `mbb_sed` from `dust.py`: the modified-blackbody scaling factor
`(freqs_to / freq_from) ^ (index - 2) * blackbody_ratio freqs_to freq_from temp`.
The exponent is a real power (`numpy ** on floats`). -/
noncomputable def mbb_sed (freqs_to freq_from index temp : ℝ) : ℝ :=
  (freqs_to / freq_from) ^ (index - 2) * blackbody_ratio freqs_to freq_from temp

/-- The state of a `ModifiedBlackBody` instance after `__init__`: the four
name-mangled attributes that the constructor assigns to `self`. The spectral
parameter maps are stored with a leading singleton axis, shape `(1, npix)`,
because the constructor assigns `read_map(...)[None, :]`. -/
structure MBBData (npix : ℕ) where
  iqu_ref : Fin 3 → Fin npix → ℝ
  iqu_ref_freqs : Fin 3 → ℝ
  mbb_index : Fin 1 → Fin npix → ℝ
  mbb_temperature : Fin 1 → Fin npix → ℝ

/-- Constructor `ModifiedBlackBody.__init__`: stacks the I/Q/U templates, stores the
reference-frequency triple `[freq_ref_I, freq_ref_P, freq_ref_P]` (the two
polarization channels share one reference frequency), and stores the spectral
maps as `(1, npix)` arrays via `[None, :]`. -/
def mkModifiedBlackBody {npix : ℕ} (map_I map_Q map_U : Fin npix → ℝ)
    (freq_ref_I freq_ref_P : ℝ) (map_mbb_index map_mbb_temperature : Fin npix → ℝ) :
    MBBData npix :=
  ⟨![map_I, map_Q, map_U], ![freq_ref_I, freq_ref_P, freq_ref_P],
    fun _ => map_mbb_index, fun _ => map_mbb_temperature⟩

/-- A single numpy broadcast dimension: a size-1 axis stretches to the other
size, anything else keeps its size (numpy raises on incompatible pairs, which
the embedded code never produces). -/
def bdim (a b : ℕ) : ℕ := if a = 1 then b else a

/-- Broadcast of two reversed (lowest axis first) shape lists: missing leading
axes count as size 1. -/
def bcRev : List ℕ → List ℕ → List ℕ
  | [], t => t
  | s, [] => s
  | a :: s, b :: t => bdim a b :: bcRev s t

/-- Numpy broadcast of two shapes, aligned at the trailing axes. -/
def broadcastShape (s t : List ℕ) : List ℕ := (bcRev s.reverse t.reverse).reverse

/-- The shape of the array built by `ModifiedBlackBody.get_emission`: the
broadcast of `freqs[:, None, None]` (nfreq, 1, 1),
`iqu_ref_freqs[None, :, None]` (1, 3, 1), the stored `(1, npix)` spectral maps
re-expanded by `[None, None, :]` to (1, 1, 1, npix) — done twice, for the index
and the temperature — and finally `iqu_ref[None, ...]` (1, 3, npix). -/
def mbb_emission_shape (nfreq npix : ℕ) : List ℕ :=
  broadcastShape (broadcastShape (broadcastShape
    (broadcastShape [nfreq, 1, 1] [1, 3, 1]) [1, 1, 1, npix]) [1, 1, 1, npix])
    [1, 3, npix]

lemma bdim_one_left (b : ℕ) : bdim 1 b = b := if_pos rfl

lemma bdim_one_right (a : ℕ) : bdim a 1 = a := by
  unfold bdim
  split
  · exact (by assumption : a = 1).symm
  · rfl

lemma bdim_self (a : ℕ) : bdim a a = a := by
  unfold bdim
  split <;> rfl

lemma mbb_emission_shape_eq (nfreq npix : ℕ) :
    mbb_emission_shape nfreq npix = [1, nfreq, 3, npix] := by
  simp [mbb_emission_shape, broadcastShape, bcRev, bdim_one_left, bdim_one_right,
    bdim_self]

/-- The value returned by `ModifiedBlackBody.get_emission`: its numpy shape and
its entries. The rank is 4 — the leading singleton axis comes from the
`(1, npix)`-stored spectral maps — and any entry reads the size-1 axes of the
operands at index 0. -/
structure MBBEmission (nfreq npix : ℕ) where
  shape : List ℕ
  entry : Fin 1 → Fin nfreq → Fin 3 → Fin npix → ℝ

/-- Method `ModifiedBlackBody.get_emission`: validate the frequencies, build the
scaling array with `mbb_sed` broadcast over `freqs[:, None, None]`,
`iqu_ref_freqs[None, :, None]` and the rank-4 re-expanded spectral maps, and
multiply elementwise with `iqu_ref[None, ...]`. Broadcasting gives shape
`(1, nfreq, 3, npix)`, not the `(nfreq, 3, npix)` promised by the docstring. -/
noncomputable def mbb_get_emission {npix : ℕ} (m : MBBData npix) (freqs : List ℝ) :
    Except PyErr (MBBEmission freqs.length npix) :=
  (check_freq_input freqs).map fun _ =>
    ⟨mbb_emission_shape freqs.length npix,
      fun _ i p x =>
        mbb_sed (freqs.get i) (m.iqu_ref_freqs p) (m.mbb_index 0 x)
          (m.mbb_temperature 0 x) * m.iqu_ref p x⟩

/-- Model of `np.interp` on a list of `(x, y)` nodes: linear interpolation with clamping
to the first and last `y` value outside the node range. -/
noncomputable def np_interp (x : ℝ) : List (ℝ × ℝ) → ℝ
  | [] => 0
  | [p] => p.2
  | p :: q :: rest =>
    if x ≤ p.1 then p.2
    else if x ≤ q.1 then p.2 + (q.2 - p.2) * (x - p.1) / (q.1 - p.1)
    else np_interp x (q :: rest)

/-- Function `compute_spdust_scaling_numba` from `spdust.py`:
`(freq_ref_I / freq)² * interp(freq / freq_peak) / interp(freq_ref_I / freq_peak)`. -/
noncomputable def compute_spdust_scaling_numba (freq freq_ref_I freq_peak : ℝ)
    (emissivity : List (ℝ × ℝ)) : ℝ :=
  (freq_ref_I / freq) ^ 2 * np_interp (freq / freq_peak) emissivity /
    np_interp (freq_ref_I / freq_peak) emissivity

lemma blackbody_nu_pos {freq temp : ℝ} (hf : 0 < freq) (hT : 0 < temp) :
    0 < blackbody_nu freq temp := by
  have hh : (0:ℝ) < hPlanck := by norm_num [hPlanck]
  have hc : (0:ℝ) < cLight := by norm_num [cLight]
  have hk : (0:ℝ) < kBoltzmann := by norm_num [kBoltzmann]
  have hnum : 0 < 2 * hPlanck * freq ^ 3 / cLight ^ 2 := by positivity
  have harg : 0 < hPlanck * freq / (kBoltzmann * temp) := by positivity
  have hden : 0 < Real.exp (hPlanck * freq / (kBoltzmann * temp)) - 1 := by
    have := Real.one_lt_exp_iff.mpr harg
    linarith
  exact div_pos hnum hden

lemma blackbody_ratio_self {freq temp : ℝ} (hf : 0 < freq) (hT : 0 < temp) :
    blackbody_ratio freq freq temp = 1 :=
  div_self (ne_of_gt (blackbody_nu_pos hf hT))

/-- Claim C1 counterexample: at `freqs = [1, 2]` (nfreq = 2) on a one-pixel
model, the array returned by `ModifiedBlackBody.get_emission` has shape
`(1, 2, 3, 1)` — the leading singleton axis produced by broadcasting the
`(1, npix)`-stored spectral maps re-expanded to rank 4 — and not the
`(nfreq, 3, npix) = (2, 3, 1)` the claim states. -/
theorem mbb_shape_cex :
    (mbb_get_emission (mkModifiedBlackBody (fun _ : Fin 1 => 1) (fun _ => 1)
        (fun _ => 1) 1 1 (fun _ => 1) (fun _ => 1)) [1, 2]).map MBBEmission.shape =
      .ok [1, 2, 3, 1] ∧ ([1, 2, 3, 1] : List ℕ) ≠ [2, 3, 1] := by
  constructor
  · have hne : ([(1:ℝ), 2]) ≠ ([] : List ℝ) := by simp
    have hpos : ∀ f ∈ [(1:ℝ), 2], 0 < f := by norm_num
    simp only [mbb_get_emission, check_freq_input, if_neg hne, if_pos hpos,
      Except.map]
    rw [mbb_emission_shape_eq]
    rfl
  · decide

/-- Claim C1 (amended to the rank-4 shape): for a valid positive frequency
input, `ModifiedBlackBody.get_emission` returns an array of shape
`(1, nfreq, 3, npix)` — the leading singleton axis coming from the `(1, npix)`
storage of the spectral maps — whose entry at `(0, i, p, x)` is
`(freq / refFreq[p]) ^ (index[x] - 2) * blackbodyRatio(freq, refFreq[p],
temp[x])` times the stored reference template for `p` at `x`, where
`refFreq = [freq_ref_I, freq_ref_P, freq_ref_P]`. -/
theorem mbb_get_emission_formula {npix : ℕ}
    (map_I map_Q map_U map_mbb_index map_mbb_temperature : Fin npix → ℝ)
    (freq_ref_I freq_ref_P : ℝ) (freqs : List ℝ)
    (hne : freqs ≠ []) (hpos : ∀ f ∈ freqs, 0 < f) :
    mbb_get_emission (mkModifiedBlackBody map_I map_Q map_U freq_ref_I freq_ref_P
        map_mbb_index map_mbb_temperature) freqs =
      .ok ⟨[1, freqs.length, 3, npix],
        fun _ i p x =>
          (freqs.get i / ![freq_ref_I, freq_ref_P, freq_ref_P] p) ^
              (map_mbb_index x - 2) *
            blackbody_ratio (freqs.get i) (![freq_ref_I, freq_ref_P, freq_ref_P] p)
              (map_mbb_temperature x) *
            ![map_I, map_Q, map_U] p x⟩ := by
  simp only [mbb_get_emission, check_freq_input, if_neg hne, if_pos hpos, Except.map,
    mkModifiedBlackBody, mbb_sed, mbb_emission_shape_eq]

theorem mbb_get_emission_formula_witness :
    (([(1:ℝ)] ≠ ([] : List ℝ)) ∧ (∀ f ∈ [(1:ℝ)], 0 < f)) ∧
    mbb_get_emission (mkModifiedBlackBody (fun _ : Fin 1 => 1) (fun _ => 1) (fun _ => 1)
        1 1 (fun _ => 1) (fun _ => 1)) [1] =
      .ok ⟨[1, [(1:ℝ)].length, 3, 1],
        fun _ i p x =>
          ([(1:ℝ)].get i / ![1, 1, 1] p) ^ ((fun _ : Fin 1 => (1:ℝ)) x - 2) *
            blackbody_ratio ([(1:ℝ)].get i) (![1, 1, 1] p) ((fun _ : Fin 1 => (1:ℝ)) x) *
            ![fun _ : Fin 1 => (1:ℝ), fun _ => 1, fun _ => 1] p x⟩ :=
  ⟨⟨by simp, by simp⟩,
    mbb_get_emission_formula (fun _ => 1) (fun _ => 1) (fun _ => 1) (fun _ => 1)
      (fun _ => 1) 1 1 [1] (by simp) (by simp)⟩

/-- Claim C7: identity at the anchor frequency. `mbb_sed f f idx T = 1` exactly for
every positive `f`, any `idx` and positive `T`; and the spinning-dust scaling at
`freq = freq_ref_I` is exactly 1 (the reference interpolated amplitude being
nonzero, which the emission-law division presupposes). -/
theorem anchor_scaling_one :
    (∀ f idx T : ℝ, 0 < f → 0 < T → mbb_sed f f idx T = 1) ∧
    (∀ (freq_ref_I freq_peak : ℝ) (em : List (ℝ × ℝ)), 0 < freq_ref_I →
      np_interp (freq_ref_I / freq_peak) em ≠ 0 →
      compute_spdust_scaling_numba freq_ref_I freq_ref_I freq_peak em = 1) := by
  constructor
  · intro f idx T hf hT
    rw [mbb_sed, div_self (ne_of_gt hf), Real.one_rpow, blackbody_ratio_self hf hT,
      one_mul]
  · intro fr fp em hfr hint
    rw [compute_spdust_scaling_numba, div_self (ne_of_gt hfr), one_pow, one_mul,
      div_self hint]

theorem anchor_scaling_one_witness :
    (0 < (2:ℝ) ∧ 0 < (4:ℝ) ∧ mbb_sed 2 2 3 4 = 1) ∧
    (0 < (1:ℝ) ∧ np_interp ((1:ℝ) / 1) [((0.5:ℝ), (1:ℝ)), (1, 2), (2, 1)] ≠ 0 ∧
      compute_spdust_scaling_numba 1 1 1 [((0.5:ℝ), (1:ℝ)), (1, 2), (2, 1)] = 1) := by
  have hint : np_interp ((1:ℝ) / 1) [((0.5:ℝ), (1:ℝ)), (1, 2), (2, 1)] = 2 := by
    norm_num [np_interp]
  refine ⟨⟨by norm_num, by norm_num, anchor_scaling_one.1 2 3 4 (by norm_num) (by norm_num)⟩,
    by norm_num, by rw [hint]; norm_num,
    anchor_scaling_one.2 1 1 _ (by norm_num) (by rw [hint]; norm_num)⟩

/-- An IEEE-754 double as far as this code path can distinguish: a finite real,
one of the two infinities, or NaN. Needed because `frequency_decorr_model`
divides by `correlation_length` with no guard, and `correlation_length = 0` is
allowed by the assertion in `get_decorrelation_matrix`. -/
inductive FVal
  | fin (x : ℝ)
  | pinf
  | ninf
  | nan

/-- IEEE division of two finite doubles: `x / 0` is NaN for `x = 0` and a
signed infinity otherwise; any other division is finite. -/
noncomputable def fdiv (x y : ℝ) : FVal :=
  if y = 0 then (if x = 0 then .nan else if 0 < x then .pinf else .ninf)
  else .fin (x / y)

/-- IEEE squaring. -/
noncomputable def fsq : FVal → FVal
  | .fin x => .fin (x ^ 2)
  | .pinf => .pinf
  | .ninf => .pinf
  | .nan => .nan

/-- IEEE multiplication by the finite negative constant `-0.5`. -/
noncomputable def fmulNegHalf : FVal → FVal
  | .fin x => .fin (-0.5 * x)
  | .pinf => .ninf
  | .ninf => .pinf
  | .nan => .nan

/-- IEEE `exp`: `exp(-inf) = 0`, `exp(+inf) = +inf`, `exp(NaN) = NaN`. -/
noncomputable def fexp : FVal → FVal
  | .fin x => .fin (Real.exp x)
  | .pinf => .pinf
  | .ninf => .fin 0
  | .nan => .nan

/-- Extraction of the finite value (0 on a special value); the decorrelation
pipeline only ever sees finite entries because it requires
`correlation_length > 0` to be meaningful. -/
noncomputable def FVal.toReal : FVal → ℝ
  | .fin x => x
  | _ => 0

/-- Function `frequency_decorr_model` from `dust.py`:
`np.exp(-0.5 * (np.log(freqs[i] / freqs[j]) / correlation_length) ** 2)`,
with the division modelled at IEEE level (there is no guard for
`correlation_length = 0` in the source). -/
noncomputable def frequency_decorr_model {n : ℕ} (freqs : Fin n → ℝ)
    (correlation_length : ℝ) : Matrix (Fin n) (Fin n) FVal :=
  fun i j => fexp (fmulNegHalf (fsq (fdiv (Real.log (freqs i / freqs j))
    correlation_length)))

lemma fdm_entry {n : ℕ} (freqs : Fin n → ℝ) {L : ℝ} (hL : L ≠ 0) (i j : Fin n) :
    frequency_decorr_model freqs L i j =
      .fin (Real.exp (-0.5 * (Real.log (freqs i / freqs j) / L) ^ 2)) := by
  simp only [frequency_decorr_model, fdiv, if_neg hL, fsq, fmulNegHalf, fexp]

/-- Claim C6: for positive frequencies and `correlation_length > 0` every entry
of the frequency correlation matrix is the finite value
`exp(-0.5 * (log(freqs[i]/freqs[j]) / L)²)`, the diagonal is exactly 1, and the
matrix is symmetric. -/
theorem frequency_decorr_model_entries {n : ℕ} (freqs : Fin n → ℝ) (L : ℝ)
    (hL : 0 < L) (hpos : ∀ i, 0 < freqs i) :
    (∀ i j, frequency_decorr_model freqs L i j =
      .fin (Real.exp (-0.5 * (Real.log (freqs i / freqs j) / L) ^ 2))) ∧
    (∀ i, frequency_decorr_model freqs L i i = .fin 1) ∧
    (∀ i j, frequency_decorr_model freqs L i j = frequency_decorr_model freqs L j i) := by
  have hentry := fdm_entry freqs (ne_of_gt hL)
  refine ⟨hentry, ?_, ?_⟩
  · intro i
    rw [hentry i i, div_self (ne_of_gt (hpos i)), Real.log_one]
    norm_num
  · intro i j
    rw [hentry i j, hentry j i]
    have hij : Real.log (freqs i / freqs j) = -Real.log (freqs j / freqs i) := by
      rw [← Real.log_inv, inv_div]
    rw [hij, neg_div, neg_sq]

theorem frequency_decorr_model_entries_witness :
    (0 < (1:ℝ) ∧ ∀ i, 0 < ![(1:ℝ), 2] i) ∧
    (∀ i j, frequency_decorr_model ![(1:ℝ), 2] 1 i j =
      .fin (Real.exp (-0.5 * (Real.log (![(1:ℝ), 2] i / ![(1:ℝ), 2] j) / 1) ^ 2))) ∧
    (∀ i, frequency_decorr_model ![(1:ℝ), 2] 1 i i = .fin 1) ∧
    (∀ i j, frequency_decorr_model ![(1:ℝ), 2] 1 i j =
      frequency_decorr_model ![(1:ℝ), 2] 1 j i) :=
  ⟨⟨by norm_num, fun i => by fin_cases i <;> norm_num⟩,
    frequency_decorr_model_entries ![(1:ℝ), 2] 1 (by norm_num)
      (fun i => by fin_cases i <;> norm_num)⟩

/-- Claim C5 counterexample: at `correlation_length = 0` the code does NOT guard
the division by zero; the diagonal entry is `exp(-0.5 * (0/0)²) = NaN`, not the
exact 1 the claim states. -/
theorem frequency_decorr_model_L0_diag_cex :
    frequency_decorr_model ![(1:ℝ), 2] 0 0 0 ≠ FVal.fin 1 := by
  have h : frequency_decorr_model ![(1:ℝ), 2] 0 0 0 = FVal.nan := by
    simp only [frequency_decorr_model, Matrix.cons_val_zero]
    rw [div_self (by norm_num : (1:ℝ) ≠ 0), Real.log_one]
    simp [fdiv, fsq, fmulNegHalf, fexp]
  rw [h]
  intro hc
  exact FVal.noConfusion hc

/-- Claim C5 amended: with `correlation_length = 0` and positive frequencies the
unguarded IEEE evaluation yields 0 at every entry whose two frequencies differ
(the fully-decorrelated limit off the diagonal) and NaN on the diagonal (0/0),
rather than an exact 1. -/
theorem frequency_decorr_model_L0 {n : ℕ} (freqs : Fin n → ℝ)
    (hpos : ∀ i, 0 < freqs i) :
    (∀ i j, freqs i ≠ freqs j → frequency_decorr_model freqs 0 i j = .fin 0) ∧
    (∀ i, frequency_decorr_model freqs 0 i i = FVal.nan) := by
  constructor
  · intro i j hij
    have hratio : freqs i / freqs j ≠ 1 := by
      intro h
      exact hij ((div_eq_one_iff_eq (ne_of_gt (hpos j))).mp h)
    have hlog : Real.log (freqs i / freqs j) ≠ 0 := by
      intro h
      rcases Real.log_eq_zero.mp h with h0 | h1 | hm1
      · exact absurd h0 (ne_of_gt (div_pos (hpos i) (hpos j)))
      · exact hratio h1
      · have := div_pos (hpos i) (hpos j)
        rw [hm1] at this
        norm_num at this
    simp only [frequency_decorr_model, fdiv, if_pos rfl, if_neg hlog]
    by_cases hsgn : 0 < Real.log (freqs i / freqs j)
    · rw [if_pos hsgn]
      simp [fsq, fmulNegHalf, fexp]
    · rw [if_neg hsgn]
      simp [fsq, fmulNegHalf, fexp]
  · intro i
    simp only [frequency_decorr_model]
    rw [div_self (ne_of_gt (hpos i)), Real.log_one]
    simp [fdiv, fsq, fmulNegHalf, fexp]

theorem frequency_decorr_model_L0_witness :
    (∀ i, 0 < ![(1:ℝ), 2] i) ∧ (![(1:ℝ), 2] 0 ≠ ![(1:ℝ), 2] 1) ∧
    frequency_decorr_model ![(1:ℝ), 2] 0 0 1 = .fin 0 ∧
    frequency_decorr_model ![(1:ℝ), 2] 0 1 1 = FVal.nan := by
  have hpos : ∀ i, 0 < ![(1:ℝ), 2] i := fun i => by fin_cases i <;> norm_num
  have hne : ![(1:ℝ), 2] 0 ≠ ![(1:ℝ), 2] 1 := by norm_num
  exact ⟨hpos, hne, (frequency_decorr_model_L0 _ hpos).1 0 1 hne,
    (frequency_decorr_model_L0 _ hpos).2 1⟩

/-- Lower-triangle symmetrization: the matrix that `np.linalg.eigh` (default
lower-triangle mode) actually decomposes. For a symmetric input it is the input itself. -/
def lowerSym {n : ℕ} (M : Matrix (Fin n) (Fin n) ℝ) : Matrix (Fin n) (Fin n) ℝ :=
  fun i j => if j ≤ i then M i j else M j i

lemma lowerSym_isHermitian {n : ℕ} (M : Matrix (Fin n) (Fin n) ℝ) :
    (lowerSym M).IsHermitian := by
  show (lowerSym M)ᴴ = lowerSym M
  ext i j
  simp only [Matrix.conjTranspose_apply, star_trivial, lowerSym]
  rcases le_or_lt i j with hij | hij
  · rcases eq_or_lt_of_le hij with heq | hlt
    · subst heq; rfl
    · rw [if_pos hij, if_neg (not_le.mpr hlt)]
  · rw [if_neg (not_le.mpr hij), if_pos hij.le]

lemma lowerSym_of_isSymm {n : ℕ} {M : Matrix (Fin n) (Fin n) ℝ} (hM : M.IsSymm) :
    lowerSym M = M := by
  ext i j
  by_cases h : j ≤ i
  · simp only [lowerSym, if_pos h]
  · simp only [lowerSym, if_neg h]
    exact hM.apply i j

lemma lowerSym_add_smul_one {n : ℕ} (M : Matrix (Fin n) (Fin n) ℝ) (c : ℝ) :
    lowerSym (M + c • 1) = lowerSym M + c • (1 : Matrix (Fin n) (Fin n) ℝ) := by
  ext i j
  by_cases h : j ≤ i <;> by_cases hij : i = j <;>
    simp [lowerSym, Matrix.one_apply, h, hij, eq_comm]

/-- Result of `np.linalg.eigh`: an eigenvalue vector `w` and an eigenvector
matrix `v` (eigenvectors as columns). -/
structure EighResult (n : ℕ) where
  w : Fin n → ℝ
  v : Matrix (Fin n) (Fin n) ℝ

/-- Predicate: `r` is a valid orthogonal eigendecomposition of `M`. -/
def isEigh {n : ℕ} (M : Matrix (Fin n) (Fin n) ℝ) (r : EighResult n) : Prop :=
  r.v * Matrix.diagonal r.w * r.vᵀ = M ∧ r.vᵀ * r.v = 1

/-- The model of `np.linalg.eigh`, built from the Mathlib spectral theorem applied
to the lower-triangle symmetrization of the argument. -/
noncomputable def npEigh {n : ℕ} (M : Matrix (Fin n) (Fin n) ℝ) : EighResult n :=
  ⟨(lowerSym_isHermitian M).eigenvalues,
    ((lowerSym_isHermitian M).eigenvectorUnitary : Matrix (Fin n) (Fin n) ℝ)⟩

lemma star_eq_transpose {n : ℕ} (U : Matrix (Fin n) (Fin n) ℝ) : star U = Uᵀ := by
  rw [Matrix.star_eq_conjTranspose, Matrix.conjTranspose_eq_transpose_of_trivial]

lemma npEigh_isEigh {n : ℕ} (M : Matrix (Fin n) (Fin n) ℝ) :
    isEigh (lowerSym M) (npEigh M) := by
  constructor
  · conv_rhs => rw [(lowerSym_isHermitian M).spectral_theorem]
    simp only [npEigh, RCLike.ofReal_real_eq_id, Function.id_comp, star_eq_transpose]
  · rw [npEigh, ← star_eq_transpose]
    exact unitary.star_mul_self_of_mem ((lowerSym_isHermitian M).eigenvectorUnitary).2

/-- Model of `np.min` of an eigenvalue vector (0 for the empty vector, on which numpy
would raise). -/
noncomputable def wmin {n : ℕ} (w : Fin n → ℝ) : ℝ :=
  if h : 0 < n then
    haveI : Nonempty (Fin n) := Fin.pos_iff_nonempty.mp h
    Finset.univ.inf' Finset.univ_nonempty w
  else 0

lemma wmin_le {n : ℕ} (hn : 0 < n) (w : Fin n → ℝ) (i : Fin n) : wmin w ≤ w i := by
  rw [wmin, dif_pos hn]
  exact Finset.inf'_le _ (Finset.mem_univ i)

lemma exists_wmin {n : ℕ} (hn : 0 < n) (w : Fin n → ℝ) : ∃ i, wmin w = w i := by
  rw [wmin, dif_pos hn]
  haveI : Nonempty (Fin n) := Fin.pos_iff_nonempty.mp hn
  obtain ⟨i, _, hi⟩ := Finset.exists_mem_eq_inf' Finset.univ_nonempty w
  exact ⟨i, hi⟩

/-- The quadratic form `xᵀ M x`. -/
noncomputable def quadForm {n : ℕ} (M : Matrix (Fin n) (Fin n) ℝ) (x : Fin n → ℝ) : ℝ :=
  Matrix.dotProduct x (M.mulVec x)

lemma quad_decomp {n : ℕ} {M : Matrix (Fin n) (Fin n) ℝ} {r : EighResult n}
    (h : isEigh M r) (x : Fin n → ℝ) :
    quadForm M x = ∑ i, r.w i * (r.vᵀ.mulVec x i) ^ 2 := by
  rw [quadForm, ← h.1, ← Matrix.mulVec_mulVec, ← Matrix.mulVec_mulVec,
    Matrix.dotProduct_mulVec, ← Matrix.mulVec_transpose]
  simp only [Matrix.dotProduct]
  refine Finset.sum_congr rfl fun i _ => ?_
  rw [Matrix.mulVec_diagonal]
  ring

lemma norm_decomp {n : ℕ} {M : Matrix (Fin n) (Fin n) ℝ} {r : EighResult n}
    (h : isEigh M r) (x : Fin n → ℝ) :
    ∑ i, (r.vᵀ.mulVec x i) ^ 2 = ∑ i, (x i) ^ 2 := by
  have hvvT : r.v * r.vᵀ = 1 := Matrix.mul_eq_one_comm.mp h.2
  calc ∑ i, (r.vᵀ.mulVec x i) ^ 2
      = Matrix.dotProduct (r.vᵀ.mulVec x) (r.vᵀ.mulVec x) := by
        simp [Matrix.dotProduct, sq]
    _ = Matrix.dotProduct (Matrix.vecMul x r.v) (r.vᵀ.mulVec x) := by
        rw [Matrix.mulVec_transpose]
    _ = Matrix.dotProduct x (r.v.mulVec (r.vᵀ.mulVec x)) :=
        (Matrix.dotProduct_mulVec _ _ _).symm
    _ = Matrix.dotProduct x ((r.v * r.vᵀ).mulVec x) := by rw [Matrix.mulVec_mulVec]
    _ = Matrix.dotProduct x x := by rw [hvvT, Matrix.one_mulVec]
    _ = ∑ i, (x i) ^ 2 := by simp [Matrix.dotProduct, sq]

lemma eigh_col {n : ℕ} {M : Matrix (Fin n) (Fin n) ℝ} {r : EighResult n}
    (h : isEigh M r) (i₀ : Fin n) :
    quadForm M (fun j => r.v j i₀) = r.w i₀ ∧ (∑ j, (r.v j i₀) ^ 2) = 1 := by
  have hyd : (r.vᵀ.mulVec fun j => r.v j i₀) =
      fun j => (1 : Matrix (Fin n) (Fin n) ℝ) j i₀ := by
    funext j
    rw [← h.2]
    simp [Matrix.mulVec, Matrix.dotProduct, Matrix.mul_apply, Matrix.transpose_apply]
  have hone : (∑ j, ((1 : Matrix (Fin n) (Fin n) ℝ) j i₀) ^ 2) = 1 := by
    have : ∀ j, ((1 : Matrix (Fin n) (Fin n) ℝ) j i₀) ^ 2 =
        if j = i₀ then 1 else 0 := fun j => by
      by_cases hj : j = i₀ <;> simp [Matrix.one_apply, hj]
    rw [Finset.sum_congr rfl fun j _ => this j]
    simp
  constructor
  · rw [quad_decomp h, hyd]
    have : ∀ j, r.w j * ((1 : Matrix (Fin n) (Fin n) ℝ) j i₀) ^ 2 =
        if j = i₀ then r.w j else 0 := fun j => by
      by_cases hj : j = i₀ <;> simp [Matrix.one_apply, hj]
    rw [Finset.sum_congr rfl fun j _ => this j]
    simp
  · have h1 := norm_decomp h (fun j => r.v j i₀)
    rw [hyd, hone] at h1
    exact h1.symm

lemma quad_ge_wmin {n : ℕ} (hn : 0 < n) {M : Matrix (Fin n) (Fin n) ℝ}
    {r : EighResult n} (h : isEigh M r) (x : Fin n → ℝ) :
    wmin r.w * ∑ i, (x i) ^ 2 ≤ quadForm M x := by
  rw [quad_decomp h, ← norm_decomp h x, Finset.mul_sum]
  exact Finset.sum_le_sum fun i _ =>
    mul_le_mul_of_nonneg_right (wmin_le hn _ i) (sq_nonneg _)

lemma quad_add_smul {n : ℕ} (M : Matrix (Fin n) (Fin n) ℝ) (c : ℝ) (x : Fin n → ℝ) :
    quadForm (M + c • 1) x = quadForm M x + c * ∑ i, (x i) ^ 2 := by
  rw [quadForm, quadForm, Matrix.add_mulVec, Matrix.dotProduct_add,
    Matrix.smul_mulVec_assoc, Matrix.one_mulVec, Matrix.dotProduct_smul, smul_eq_mul]
  congr 1
  simp [Matrix.dotProduct, sq]

lemma wmin_shift {n : ℕ} (hn : 0 < n) {M M' : Matrix (Fin n) (Fin n) ℝ} {c : ℝ}
    {r r' : EighResult n} (hM' : M' = M + c • 1) (hr : isEigh M r)
    (hr' : isEigh M' r') : wmin r.w + c ≤ wmin r'.w := by
  obtain ⟨i₀, hi₀⟩ := exists_wmin hn r'.w
  have hcol := eigh_col hr' i₀
  have hq : quadForm M' (fun j => r'.v j i₀) = wmin r'.w := by rw [hcol.1, hi₀]
  have hqM : quadForm M' (fun j => r'.v j i₀) =
      quadForm M (fun j => r'.v j i₀) + c * ∑ i, (r'.v i i₀) ^ 2 := by
    rw [hM', quad_add_smul]
  have hlow : wmin r.w * ∑ i, (r'.v i i₀) ^ 2 ≤ quadForm M (fun j => r'.v j i₀) :=
    quad_ge_wmin hn hr _
  rw [hcol.2] at hqM hlow
  linarith

lemma wmin_load_pos {n : ℕ} (hn : 0 < n) (M : Matrix (Fin n) (Fin n) ℝ)
    (h : ¬ 0 < wmin (npEigh M).w) :
    0 < wmin (npEigh (M + (2 * max 1e-14 (-(wmin (npEigh M).w))) • 1)).w := by
  have h1 : isEigh (lowerSym M) (npEigh M) := npEigh_isEigh M
  have h2 : isEigh (lowerSym M + (2 * max 1e-14 (-(wmin (npEigh M).w))) • 1)
      (npEigh (M + (2 * max 1e-14 (-(wmin (npEigh M).w))) • 1)) := by
    rw [← lowerSym_add_smul_one]
    exact npEigh_isEigh _
  have hshift := wmin_shift hn rfl h1 h2
  have hmax1 : (1e-14 : ℝ) ≤ max 1e-14 (-(wmin (npEigh M).w)) := le_max_left _ _
  have hmax2 : -(wmin (npEigh M).w) ≤ max 1e-14 (-(wmin (npEigh M).w)) :=
    le_max_right _ _
  have hpos : (0:ℝ) < 1e-14 := by norm_num
  linarith

/-- The `while not w_ok` loop of `invert_safe`: eigendecompose; if the minimum
eigenvalue is positive, return `v · diag(1/w) · vᵀ`; otherwise add
`2 * max(1e-14, -wmin)` to every diagonal entry and retry. Termination is by
`wmin_load_pos`: one diagonal loading already makes every eigenvalue positive. -/
noncomputable def invertSafeCore {n : ℕ} (hn : 0 < n) (M : Matrix (Fin n) (Fin n) ℝ) :
    Matrix (Fin n) (Fin n) ℝ :=
  if h : 0 < wmin (npEigh M).w then
    (npEigh M).v * Matrix.diagonal (fun i => 1 / (npEigh M).w i) * (npEigh M).vᵀ
  else
    invertSafeCore hn (M + (2 * max 1e-14 (-(wmin (npEigh M).w))) • 1)
termination_by (if 0 < wmin (npEigh M).w then 0 else 1 : ℕ)
decreasing_by
  simp only [if_neg h, if_pos (wmin_load_pos hn M h)]
  norm_num

/-- Function `invert_safe` from `dust.py`. On the empty matrix the numpy `np.min` of an
empty eigenvalue array raises; the model returns the unique empty matrix, a case
never reached by the claims settled below. -/
noncomputable def invert_safe {n : ℕ} (M : Matrix (Fin n) (Fin n) ℝ) :
    Matrix (Fin n) (Fin n) ℝ :=
  if hn : 0 < n then invertSafeCore hn M else M

/-- Claim C4: for every finite-size symmetric real matrix the diagonal-loading
loop of `invert_safe` terminates after a bounded number of iterations: a pass
with `wmin ≤ 0` adds `2 * max(1e-14, -wmin)` to the diagonal, which in exact
arithmetic makes the new minimum eigenvalue strictly positive, after which the
function returns `v · diag(1/w) · vᵀ`. Concretely: at most one loading pass is
ever taken, and the returned value is the reconstruction from the
eigendecomposition of `M` itself or of its once-loaded version. -/
theorem invert_safe_terminates {n : ℕ} (hn : 0 < n) (M : Matrix (Fin n) (Fin n) ℝ)
    (hM : M.IsSymm) :
    (wmin (npEigh M).w ≤ 0 →
      0 < wmin (npEigh (M + (2 * max 1e-14 (-(wmin (npEigh M).w))) • 1)).w) ∧
    ∃ M', (M' = M ∨ M' = M + (2 * max 1e-14 (-(wmin (npEigh M).w))) • 1) ∧
      isEigh M' (npEigh M') ∧ 0 < wmin (npEigh M').w ∧
      invert_safe M =
        (npEigh M').v * Matrix.diagonal (fun i => 1 / (npEigh M').w i) * (npEigh M').vᵀ := by
  constructor
  · intro hle
    exact wmin_load_pos hn M (not_lt.mpr hle)
  · by_cases h : 0 < wmin (npEigh M).w
    · refine ⟨M, Or.inl rfl, ?_, h, ?_⟩
      · have he := npEigh_isEigh M
        rwa [lowerSym_of_isSymm hM] at he
      · rw [invert_safe, dif_pos hn, invertSafeCore, dif_pos h]
    · refine ⟨M + (2 * max 1e-14 (-(wmin (npEigh M).w))) • 1, Or.inr rfl, ?_,
        wmin_load_pos hn M h, ?_⟩
      · have hsmul : ((2 * max 1e-14 (-(wmin (npEigh M).w))) •
            (1 : Matrix (Fin n) (Fin n) ℝ)).IsSymm := by
          rw [Matrix.IsSymm, Matrix.transpose_smul, Matrix.transpose_one]
        have he := npEigh_isEigh (M + (2 * max 1e-14 (-(wmin (npEigh M).w))) • 1)
        rwa [lowerSym_of_isSymm (hM.add hsmul)] at he
      · rw [invert_safe, dif_pos hn, invertSafeCore, dif_neg h, invertSafeCore,
          dif_pos (wmin_load_pos hn M h)]

theorem invert_safe_terminates_witness :
    0 < 1 ∧ (Matrix.diagonal ![(-1:ℝ)]).IsSymm ∧
    ((wmin (npEigh (Matrix.diagonal ![(-1:ℝ)])).w ≤ 0 →
      0 < wmin (npEigh (Matrix.diagonal ![(-1:ℝ)] +
        (2 * max 1e-14 (-(wmin (npEigh (Matrix.diagonal ![(-1:ℝ)])).w))) • 1)).w) ∧
    ∃ M', (M' = Matrix.diagonal ![(-1:ℝ)] ∨
        M' = Matrix.diagonal ![(-1:ℝ)] +
          (2 * max 1e-14 (-(wmin (npEigh (Matrix.diagonal ![(-1:ℝ)])).w))) • 1) ∧
      isEigh M' (npEigh M') ∧ 0 < wmin (npEigh M').w ∧
      invert_safe (Matrix.diagonal ![(-1:ℝ)]) =
        (npEigh M').v * Matrix.diagonal (fun i => 1 / (npEigh M').w i) * (npEigh M').vᵀ) :=
  ⟨Nat.one_pos, Matrix.isSymm_diagonal _,
    invert_safe_terminates Nat.one_pos _ (Matrix.isSymm_diagonal _)⟩

/-- Model of `np.delete(l, idxs)` on a 1-D array: drop the listed flat positions. -/
noncomputable def deleteIdxs (l : List ℝ) (idxs : List ℕ) : List ℝ :=
  ((List.range l.length).filter (fun i => ¬ i ∈ idxs)).map (fun i => l.getD i 0)

/-- Return value of `get_decorrelation_matrix`: a covariance square-root-style
matrix and a mean vector over the unconstrained frequencies (the dimension `k`
is data, computed by the index bookkeeping of the source). -/
structure DecorrResult where
  k : ℕ
  covar : Matrix (Fin k) (Fin k) ℝ
  mean : Fin k → ℝ

/-- Reconstruction `v · diag(sqrt(max(w, 0))) · vᵀ` from the eigendecomposition
of the re-inverted unconstrained block (`rho_covar` in the source). -/
noncomputable def mkCovar {k : ℕ} (B : Matrix (Fin k) (Fin k) ℝ) :
    Matrix (Fin k) (Fin k) ℝ :=
  (npEigh (invert_safe B)).v *
    Matrix.diagonal (fun i => Real.sqrt (max ((npEigh (invert_safe B)).w i) 0)) *
    (npEigh (invert_safe B)).vᵀ

/-- Source line `rho_mean = -rho_uu_reinverted · rho_inv_cu` in the source. -/
noncomputable def mkMean {k : ℕ} (B : Matrix (Fin k) (Fin k) ℝ) (d : Fin k → ℝ) :
    Fin k → ℝ :=
  fun i => -((invert_safe B).mulVec d i)

/-- The tail of `get_decorrelation_matrix` below the index bookkeeping: restrict
the inverted correlation matrix `A` to the kept rows/columns `κ`, re-invert,
eigendecompose and reconstruct, and form the mean from the flattened-and-deleted
cross column `c`. `np.dot` raises a shape error when `c` does not have the
length of the block (which happens when the constrained frequency also occurs
among the unconstrained ones); the source raises it after computing `rho_covar`,
so the observable result is the same error value. -/
noncomputable def decorrCore {N : ℕ} (A : Matrix (Fin N) (Fin N) ℝ)
    (κ : List (Fin N)) (c : List ℝ) : Except PyErr DecorrResult :=
  if h : c.length = κ.length then
    .ok ⟨κ.length, mkCovar (Matrix.of fun i j => A (κ.get i) (κ.get j)),
      mkMean (Matrix.of fun i j => A (κ.get i) (κ.get j))
        (fun j => c.get (Fin.cast h.symm j))⟩
  else .error .valueError

/-- Source line `freqs_all = np.insert(freqs_unconstrained, 0, freq_constrained)`. -/
def freqsAll (fc : ℝ) (F : List ℝ) : Fin (F.length + 1) → ℝ :=
  fun i => (fc :: F).get i

/-- Source line `indref = np.where(freqs_all == freq_constrained)`. -/
noncomputable def indrefList (fc : ℝ) (F : List ℝ) : List (Fin (F.length + 1)) :=
  (List.finRange (F.length + 1)).filter (fun i => freqsAll fc F i = fc)

/-- The complement of `indref`, in order: the rows/columns surviving the two
`np.delete` calls that build `rho_uu`. -/
noncomputable def keptList (fc : ℝ) (F : List ℝ) : List (Fin (F.length + 1)) :=
  (List.finRange (F.length + 1)).filter (fun i => ¬ freqsAll fc F i = fc)

/-- Source line `corrmatrix = frequency_decorr_model(freqs_all, correlation_length)`, read
back as finite doubles. -/
noncomputable def corrmatrix (fc : ℝ) (F : List ℝ) (L : ℝ) :
    Matrix (Fin (F.length + 1)) (Fin (F.length + 1)) ℝ :=
  Matrix.of fun i j => (frequency_decorr_model (freqsAll fc F) L i j).toReal

/-- Source line `rho_inv = invert_safe(corrmatrix)`. -/
noncomputable def rhoInv (fc : ℝ) (F : List ℝ) (L : ℝ) :
    Matrix (Fin (F.length + 1)) (Fin (F.length + 1)) ℝ :=
  invert_safe (corrmatrix fc F L)

/-- The row-major flattening of `rho_inv[:, indref]` (shape `(N, #indref)`),
which `np.delete(·, indref)` then prunes by flat position. -/
noncomputable def cuFlat (fc : ℝ) (F : List ℝ) (L : ℝ) : List ℝ :=
  (List.finRange (F.length + 1)).flatMap
    (fun i => (indrefList fc F).map (fun j => rhoInv fc F L i j))

/-- Value `rho_inv_cu` after `np.delete(·, indref)` on the flattened column block. -/
noncomputable def cuList (fc : ℝ) (F : List ℝ) (L : ℝ) : List ℝ :=
  deleteIdxs (cuFlat fc F L) ((indrefList fc F).map Fin.val)

/-- Function `get_decorrelation_matrix` from `dust.py`: assert `correlation_length ≥ 0`,
validate the constrained frequency, build and invert the correlation matrix of
`[freq_constrained] ++ freqs_unconstrained`, drop the `indref` rows/columns,
re-invert, eigendecompose with clipped square-rooted eigenvalues, and pair the
reconstruction with the mean `-rho_uu · rho_inv_cu`. -/
noncomputable def get_decorrelation_matrix (freq_constrained : ℝ)
    (freqs_unconstrained : List ℝ) (correlation_length : ℝ) :
    Except PyErr DecorrResult :=
  if ¬ 0 ≤ correlation_length then .error .assertionError
  else
    match check_freq_input [freq_constrained] with
    | .error e => .error e
    | .ok _ =>
      decorrCore (rhoInv freq_constrained freqs_unconstrained correlation_length)
        (keptList freq_constrained freqs_unconstrained)
        (cuList freq_constrained freqs_unconstrained correlation_length)

/-- Spec-side correlation matrix of the combined list `[f_c] ++ F` (the matrix `R` of C2). -/
noncomputable def corrAllSpec (fc : ℝ) (F : List ℝ) (L : ℝ) :
    Matrix (Fin (F.length + 1)) (Fin (F.length + 1)) ℝ :=
  Matrix.of fun i j =>
    Real.exp (-0.5 * (Real.log (freqsAll fc F i / freqsAll fc F j) / L) ^ 2)

/-- Spec-side `P_uu`: the block of `P = safeInvert(R)` excluding the constrained
index (which sits at position 0). -/
noncomputable def PuuSpec (fc : ℝ) (F : List ℝ) (L : ℝ) :
    Matrix (Fin F.length) (Fin F.length) ℝ :=
  Matrix.of fun i j => invert_safe (corrAllSpec fc F L) i.succ j.succ

/-- Spec-side cross column of `P` between the constrained index and the
unconstrained ones. -/
noncomputable def PcuSpec (fc : ℝ) (F : List ℝ) (L : ℝ) : Fin F.length → ℝ :=
  fun i => invert_safe (corrAllSpec fc F L) i.succ 0

lemma freqsAll_zero (fc : ℝ) (F : List ℝ) : freqsAll fc F 0 = fc := by
  simp [freqsAll]

lemma freqsAll_succ (fc : ℝ) (F : List ℝ) (i : Fin F.length) :
    freqsAll fc F i.succ = F.get i := by
  simp [freqsAll]

lemma decorrOk_cast : ∀ {k n : ℕ} (hk : k = n) (B : Matrix (Fin k) (Fin k) ℝ)
    (d : Fin k → ℝ) (B' : Matrix (Fin n) (Fin n) ℝ) (d' : Fin n → ℝ),
    (∀ i j, B i j = B' (Fin.cast hk i) (Fin.cast hk j)) →
    (∀ j, d j = d' (Fin.cast hk j)) →
    (⟨k, mkCovar B, mkMean B d⟩ : DecorrResult) = ⟨n, mkCovar B', mkMean B' d'⟩ := by
  intro k n hk
  subst hk
  intro B d B' d' hB hd
  have hBB : B = B' := by
    ext i j
    simpa [Fin.cast_refl] using hB i j
  have hdd : d = d' := by
    funext j
    simpa [Fin.cast_refl] using hd j
  rw [hBB, hdd]

lemma get_map_finRange {n : ℕ} {β : Type} (f : Fin n → β)
    (hk : ((List.finRange n).map f).length = n)
    (i : Fin ((List.finRange n).map f).length) :
    ((List.finRange n).map f).get i = f (Fin.cast hk i) := by
  rw [List.get_map, List.get_finRange]
  congr 1

lemma decorrCore_finRange {N n : ℕ} (A : Matrix (Fin N) (Fin N) ℝ)
    (σ : Fin n → Fin N) (g : Fin n → ℝ) :
    decorrCore A ((List.finRange n).map σ) ((List.finRange n).map g) =
      .ok ⟨n, mkCovar (Matrix.of fun i j => A (σ i) (σ j)),
        mkMean (Matrix.of fun i j => A (σ i) (σ j)) g⟩ := by
  have hk : ((List.finRange n).map σ).length = n := by simp
  have hkg : ((List.finRange n).map g).length = n := by simp
  have hlen : ((List.finRange n).map g).length = ((List.finRange n).map σ).length := by
    simp
  rw [decorrCore, dif_pos hlen]
  congr 1
  refine decorrOk_cast hk _ _ _ _ ?_ ?_
  · intro i j
    simp only [Matrix.of_apply]
    rw [get_map_finRange σ hk i, get_map_finRange σ hk j]
  · intro j
    rw [get_map_finRange g hkg]
    exact congrArg g (Fin.ext rfl)

lemma indrefList_eq (fc : ℝ) (F : List ℝ) (hnot : fc ∉ F) :
    indrefList fc F = [0] := by
  rw [indrefList, List.finRange_succ_eq_map,
    List.filter_cons_of_pos (by simp [freqsAll_zero]), List.filter_map]
  have : List.filter ((fun i => decide (freqsAll fc F i = fc)) ∘ Fin.succ)
      (List.finRange F.length) = [] := by
    rw [List.filter_eq_nil_iff]
    intro i _
    simp only [Function.comp_apply, freqsAll_succ, decide_eq_true_eq]
    intro h
    exact hnot (h ▸ List.get_mem F i.1 i.2)
  rw [this, List.map_nil]

lemma keptList_eq (fc : ℝ) (F : List ℝ) (hnot : fc ∉ F) :
    keptList fc F = (List.finRange F.length).map Fin.succ := by
  rw [keptList, List.finRange_succ_eq_map,
    List.filter_cons_of_neg (by simp [freqsAll_zero]), List.filter_map]
  congr 1
  rw [List.filter_eq_self]
  intro i _
  simp only [Function.comp_apply, freqsAll_succ, decide_eq_true_eq]
  intro h
  exact hnot (h ▸ List.get_mem F i.1 i.2)

lemma flatMap_single {α β : Type} (f : α → β) :
    ∀ l : List α, (l.flatMap fun i => [f i]) = l.map f := by
  intro l
  induction l with
  | nil => rfl
  | cons a l ih => rw [List.flatMap_cons, List.map_cons, ih]; rfl

lemma map_getD_range {α : Type} (d : α) :
    ∀ l : List α, (List.range l.length).map (fun i => l.getD i d) = l := by
  intro l
  induction l with
  | nil => rfl
  | cons a l ih =>
    rw [List.length_cons, List.range_succ_eq_map, List.map_cons, List.map_map,
      List.getD_cons_zero]
    exact congrArg (List.cons a) ih

lemma deleteIdxs_cons_zero (a : ℝ) (l : List ℝ) : deleteIdxs (a :: l) [0] = l := by
  rw [deleteIdxs, List.length_cons, List.range_succ_eq_map,
    List.filter_cons_of_neg (by simp), List.filter_map]
  have hfil : List.filter ((fun i => decide ¬i ∈ [0]) ∘ Nat.succ)
      (List.range l.length) = List.range l.length := by
    rw [List.filter_eq_self]
    intro i _
    simp
  rw [hfil, List.map_map]
  calc List.map ((fun i => (a :: l).getD i 0) ∘ Nat.succ) (List.range l.length)
      = List.map (fun i => l.getD i 0) (List.range l.length) := by
        refine List.map_congr_left fun i _ => ?_
        simp [List.getD_cons_succ]
    _ = l := map_getD_range 0 l

lemma corrmatrix_eq_spec (fc : ℝ) (F : List ℝ) {L : ℝ} (hL : L ≠ 0) :
    corrmatrix fc F L = corrAllSpec fc F L := by
  ext i j
  rw [corrmatrix, corrAllSpec, Matrix.of_apply, Matrix.of_apply,
    fdm_entry (freqsAll fc F) hL i j]
  rfl

/-- Claim C2 (amended with `f_c ∉ F`): for a positive constrained frequency
`f_c` not occurring in the non-empty positive list `F` and `L > 0`,
`get_decorrelation_matrix` returns the pair over the `n = |F|` unconstrained
frequencies: the covariance is `V · diag(sqrt(max(λ,0))) · Vᵀ` for the
eigendecomposition `(λ, V)` of `S = safeInvert(P_uu)`, where `P = safeInvert(R)`
for the correlation matrix `R` of `[f_c] ++ F` and `P_uu` is the block of `P`
without the constrained index, and the mean is `-S · P_cu` for the cross column
`P_cu` of `P`. -/
theorem get_decorrelation_matrix_spec (fc : ℝ) (F : List ℝ) (L : ℝ)
    (hfc : 0 < fc) (hF : ∀ f ∈ F, 0 < f) (hne : F ≠ []) (hL : 0 < L)
    (hnot : fc ∉ F) :
    get_decorrelation_matrix fc F L =
      .ok ⟨F.length, mkCovar (PuuSpec fc F L),
        mkMean (PuuSpec fc F L) (PcuSpec fc F L)⟩ := by
  have hchk : check_freq_input [fc] = .ok [fc] := by
    simp [check_freq_input, hfc]
  have hind := indrefList_eq fc F hnot
  have hflat : cuFlat fc F L =
      (List.finRange (F.length + 1)).map (fun i => rhoInv fc F L i 0) := by
    rw [cuFlat, hind]
    exact flatMap_single _ _
  have hcu : cuList fc F L =
      (List.finRange F.length).map (fun i => rhoInv fc F L i.succ 0) := by
    rw [cuList, hflat, hind, List.finRange_succ_eq_map, List.map_cons, List.map_map]
    rw [show List.map Fin.val ([0] : List (Fin (F.length + 1))) = [0] by simp]
    exact deleteIdxs_cons_zero _ _
  have hP : rhoInv fc F L = invert_safe (corrAllSpec fc F L) := by
    rw [rhoInv, corrmatrix_eq_spec fc F (ne_of_gt hL)]
  calc get_decorrelation_matrix fc F L
      = decorrCore (rhoInv fc F L) (keptList fc F) (cuList fc F L) := by
        rw [get_decorrelation_matrix, if_neg (not_not_intro hL.le), hchk]
    _ = decorrCore (rhoInv fc F L) ((List.finRange F.length).map Fin.succ)
        ((List.finRange F.length).map (fun i => rhoInv fc F L i.succ 0)) := by
        rw [keptList_eq fc F hnot, hcu]
    _ = .ok ⟨F.length, mkCovar (Matrix.of fun i j => rhoInv fc F L i.succ j.succ),
        mkMean (Matrix.of fun i j => rhoInv fc F L i.succ j.succ)
          (fun i => rhoInv fc F L i.succ 0)⟩ := decorrCore_finRange _ _ _
    _ = .ok ⟨F.length, mkCovar (PuuSpec fc F L),
        mkMean (PuuSpec fc F L) (PcuSpec fc F L)⟩ := by
        rw [hP]
        rfl

theorem get_decorrelation_matrix_spec_witness :
    (0 < (1:ℝ) ∧ (∀ f ∈ [(2:ℝ)], 0 < f) ∧ [(2:ℝ)] ≠ [] ∧ 0 < (1:ℝ) ∧
      (1:ℝ) ∉ [(2:ℝ)]) ∧
    get_decorrelation_matrix 1 [2] 1 =
      .ok ⟨[(2:ℝ)].length, mkCovar (PuuSpec 1 [2] 1),
        mkMean (PuuSpec 1 [2] 1) (PcuSpec 1 [2] 1)⟩ :=
  ⟨⟨by norm_num, by norm_num, by norm_num, by norm_num, by norm_num⟩,
    get_decorrelation_matrix_spec 1 [2] 1 (by norm_num) (by norm_num) (by norm_num)
      (by norm_num) (by norm_num)⟩

/-- Claim C2 counterexample: when the constrained frequency also occurs among
the unconstrained ones (`f_c = 1`, `F = [1, 2]`), `np.where` matches several
indices, the deleted blocks shrink below `n`, and the `np.dot` building the mean
fails on mismatched shapes: the function raises instead of returning an
`n × n` covariance with a length-`n` mean. -/
theorem get_decorrelation_matrix_dup_cex :
    get_decorrelation_matrix 1 [1, 2] 1 = .error .valueError := by
  have hchk : check_freq_input [(1:ℝ)] = .ok [1] := by
    norm_num [check_freq_input]
  have hfr : List.finRange ([(1:ℝ), 2].length + 1) = [0, 1, 2] := by decide
  have h0 : freqsAll (1:ℝ) [1, 2] 0 = 1 := rfl
  have h1 : freqsAll (1:ℝ) [1, 2] 1 = 1 := rfl
  have h2 : freqsAll (1:ℝ) [1, 2] 2 = 2 := rfl
  have hind : indrefList 1 [1, 2] = [0, 1] := by
    rw [indrefList, hfr, List.filter_cons_of_pos (by simp [h0]),
      List.filter_cons_of_pos (by simp [h1]),
      List.filter_cons_of_neg (by simp [h2]), List.filter_nil]
  have hkept : keptList 1 [1, 2] = [2] := by
    rw [keptList, hfr, List.filter_cons_of_neg (by simp [h0]),
      List.filter_cons_of_neg (by simp [h1]),
      List.filter_cons_of_pos (by simp [h2]), List.filter_nil]
  have hlen6 : (cuFlat 1 [1, 2] 1).length = 6 := by
    rw [cuFlat, hind, hfr]
    simp [List.flatMap_cons, List.flatMap_nil]
  have hc : (cuList 1 [1, 2] 1).length = 4 := by
    rw [cuList, deleteIdxs, List.length_map, hlen6, hind]
    rw [show List.map Fin.val ([0, 1] : List (Fin ([(1:ℝ), 2].length + 1))) = [0, 1]
      by decide]
    decide
  rw [get_decorrelation_matrix, if_neg (by norm_num), hchk]
  rw [decorrCore, dif_neg]
  rw [hc, hkept]
  norm_num

lemma np_interp_low (z : ℝ) (p : ℝ × ℝ) (rest : List (ℝ × ℝ)) (h : z ≤ p.1) :
    np_interp z (p :: rest) = p.2 := by
  cases rest with
  | nil => rfl
  | cons q rs => simp only [np_interp, if_pos h]

lemma chain_head_le_getLast : ∀ (q : ℝ × ℝ) (rest : List (ℝ × ℝ)),
    (q :: rest).Chain' (fun p r => p.1 < r.1) →
    q.1 ≤ ((q :: rest).getLast (List.cons_ne_nil q rest)).1 := by
  intro q rest
  induction rest generalizing q with
  | nil => intro _; simp
  | cons r rs ih =>
    intro hch
    have h1 : q.1 < r.1 := (List.chain'_cons.mp hch).1
    have h2 := ih r (List.chain'_cons.mp hch).2
    rw [List.getLast_cons (List.cons_ne_nil r rs)]
    exact le_trans h1.le h2

lemma np_interp_high : ∀ (l : List (ℝ × ℝ)) (hl : l ≠ []),
    l.Chain' (fun p q => p.1 < q.1) → ∀ z, (l.getLast hl).1 ≤ z →
    np_interp z l = (l.getLast hl).2 := by
  intro l
  induction l with
  | nil => intro hl; exact absurd rfl hl
  | cons p t ih =>
    intro hl hch z hz
    cases t with
    | nil => rfl
    | cons q rs =>
      have hpq : p.1 < q.1 := (List.chain'_cons.mp hch).1
      have hch2 : (q :: rs).Chain' (fun p r => p.1 < r.1) :=
        (List.chain'_cons.mp hch).2
      rw [List.getLast_cons (List.cons_ne_nil q rs)] at hz ⊢
      have hqz : q.1 ≤ z := le_trans (chain_head_le_getLast q rs hch2) hz
      simp only [np_interp, if_neg (not_le.mpr (lt_of_lt_of_le hpq hqz))]
      cases rs with
      | nil =>
        simp only [List.getLast_singleton] at hz ⊢
        by_cases hb : z ≤ q.1
        · rw [if_pos hb]
          have hzq : z = q.1 := le_antisymm hb hz
          rw [hzq, mul_div_assoc, div_self (sub_ne_zero.mpr (ne_of_gt hpq))]
          ring
        · rw [if_neg hb]
          rfl
      | cons r rs' =>
        have hqr : q.1 < r.1 := (List.chain'_cons.mp hch2).1
        have hrlast := chain_head_le_getLast r rs' (List.chain'_cons.mp hch2).2
        rw [List.getLast_cons (List.cons_ne_nil r rs')] at hz ⊢
        have hqlt : q.1 < z :=
          lt_of_lt_of_le hqr (le_trans hrlast hz)
        rw [if_neg (not_le.mpr hqlt)]
        have := ih (List.cons_ne_nil q (r :: rs')) hch2 z
          (by rw [List.getLast_cons (List.cons_ne_nil r rs')]; exact hz)
        rw [this, List.getLast_cons (List.cons_ne_nil r rs')]

/-- The state of a `SpDust` instance after `__init__`: the stored `freq_peak`
is already normalized by the reference peak frequency. -/
structure SpDustData (npix : ℕ) where
  I_ref : Fin npix → ℝ
  freq_ref_I : ℝ
  freq_peak : Fin npix → ℝ
  emissivity : List (ℝ × ℝ)

/-- Constructor `SpDust.__init__`: reads the intensity template and divides the
peak-frequency map by `freq_ref_peak` in place. -/
noncomputable def mkSpDust {npix : ℕ} (map_I : Fin npix → ℝ) (freq_ref_I : ℝ)
    (emissivity : List (ℝ × ℝ)) (freq_peak : Fin npix → ℝ)
    (freq_ref_peak : ℝ) : SpDustData npix :=
  ⟨map_I, freq_ref_I, fun x => freq_peak x / freq_ref_peak, emissivity⟩

/-- Function `compute_spdust_emission_numba`: the `(nfreq, 1, npix)` array
`I_ref * scaling`. -/
noncomputable def compute_spdust_emission_numba {npix : ℕ} (freqs : List ℝ)
    (I_ref : Fin npix → ℝ) (freq_ref_I : ℝ) (freq_peak : Fin npix → ℝ)
    (emissivity : List (ℝ × ℝ)) : Fin freqs.length → Fin 1 → Fin npix → ℝ :=
  fun i _ x =>
    I_ref x * compute_spdust_scaling_numba (freqs.get i) freq_ref_I (freq_peak x)
      emissivity

/-- Method `SpDust.get_emission`. -/
noncomputable def spdust_get_emission {npix : ℕ} (m : SpDustData npix)
    (freqs : List ℝ) : Except PyErr (Fin freqs.length → Fin 1 → Fin npix → ℝ) :=
  (check_freq_input freqs).map fun _ =>
    compute_spdust_emission_numba freqs m.I_ref m.freq_ref_I m.freq_peak m.emissivity

/-- Claim C8: for a valid positive frequency input, `SpDust.get_emission`
returns the `(nfreq, 1, npix)` array whose intensity entry is
`I_ref[x] * (freqRefI/f)² * interp(f / freqPeak[x]) / interp(freqRefI / freqPeak[x])`
with `freqPeak` the construction-normalized ratio map, and `np_interp` is linear
interpolation clamped to the edge values of the curve. -/
theorem spdust_get_emission_formula {npix : ℕ} (map_I freq_peak : Fin npix → ℝ)
    (freq_ref_I freq_ref_peak : ℝ) (em : List (ℝ × ℝ)) (freqs : List ℝ)
    (hne : freqs ≠ []) (hpos : ∀ f ∈ freqs, 0 < f) :
    spdust_get_emission (mkSpDust map_I freq_ref_I em freq_peak freq_ref_peak)
        freqs =
      .ok (fun i _ x =>
        map_I x * ((freq_ref_I / freqs.get i) ^ 2 *
          np_interp (freqs.get i / (freq_peak x / freq_ref_peak)) em /
          np_interp (freq_ref_I / (freq_peak x / freq_ref_peak)) em)) ∧
    (∀ (z : ℝ) (p : ℝ × ℝ) (rest : List (ℝ × ℝ)), z ≤ p.1 →
      np_interp z (p :: rest) = p.2) ∧
    (∀ (l : List (ℝ × ℝ)) (hl : l ≠ []), l.Chain' (fun p q => p.1 < q.1) →
      ∀ z, (l.getLast hl).1 ≤ z → np_interp z l = (l.getLast hl).2) := by
  refine ⟨?_, np_interp_low, np_interp_high⟩
  simp only [spdust_get_emission, check_freq_input, if_neg hne, if_pos hpos,
    Except.map, mkSpDust]
  rfl

theorem spdust_get_emission_formula_witness :
    (([(1:ℝ)] ≠ ([] : List ℝ)) ∧ (∀ f ∈ [(1:ℝ)], 0 < f)) ∧
    (spdust_get_emission (mkSpDust (fun _ : Fin 1 => 1) 1 [((1:ℝ), (1:ℝ))]
        (fun _ => 1) 1) [1] =
      .ok (fun i _ x =>
        (fun _ : Fin 1 => (1:ℝ)) x * (((1:ℝ) / [(1:ℝ)].get i) ^ 2 *
          np_interp ([(1:ℝ)].get i / ((fun _ : Fin 1 => (1:ℝ)) x / 1)) [((1:ℝ), (1:ℝ))] /
          np_interp ((1:ℝ) / ((fun _ : Fin 1 => (1:ℝ)) x / 1)) [((1:ℝ), (1:ℝ))])) ∧
    (∀ (z : ℝ) (p : ℝ × ℝ) (rest : List (ℝ × ℝ)), z ≤ p.1 →
      np_interp z (p :: rest) = p.2) ∧
    (∀ (l : List (ℝ × ℝ)) (hl : l ≠ []), l.Chain' (fun p q => p.1 < q.1) →
      ∀ z, (l.getLast hl).1 ≤ z → np_interp z l = (l.getLast hl).2)) :=
  ⟨⟨by simp, by simp⟩,
    spdust_get_emission_formula (fun _ => 1) (fun _ => 1) 1 1 [((1:ℝ), (1:ℝ))] [1]
      (by simp) (by simp)⟩

/-- Model of `np.arctan2(y, x)`: the angle of the point `(x, y)` in `(-π, π]`. -/
noncomputable def np_arctan2 (y x : ℝ) : ℝ := Complex.arg ⟨x, y⟩

/-- The state of a `SpDustPol` instance: the parent state plus the fixed
polarization angle map `arctan2(U, Q)` and the polarization fraction. -/
structure SpDustPolData (npix : ℕ) extends SpDustData npix where
  pol_angle : Fin npix → ℝ
  pol_frac : ℝ

/-- Constructor `SpDustPol.__init__`. -/
noncomputable def mkSpDustPol {npix : ℕ} (map_I : Fin npix → ℝ) (freq_ref_I : ℝ)
    (emissivity : List (ℝ × ℝ)) (freq_peak : Fin npix → ℝ) (freq_ref_peak : ℝ)
    (pol_frac : ℝ) (angle_Q angle_U : Fin npix → ℝ) : SpDustPolData npix :=
  ⟨mkSpDust map_I freq_ref_I emissivity freq_peak freq_ref_peak,
    fun x => np_arctan2 (angle_U x) (angle_Q x), pol_frac⟩

/-- Function `compute_spdust_emission_pol_numba`: rows `I_ref`,
`I_ref * pol_frac * cos(pol_angle)`, `I_ref * pol_frac * sin(pol_angle)`, all
multiplied by the frequency scaling. -/
noncomputable def compute_spdust_emission_pol_numba {npix : ℕ} (freqs : List ℝ)
    (I_ref : Fin npix → ℝ) (freq_ref_I : ℝ) (freq_peak : Fin npix → ℝ)
    (emissivity : List (ℝ × ℝ)) (pol_angle : Fin npix → ℝ) (pol_frac : ℝ) :
    Fin freqs.length → Fin 3 → Fin npix → ℝ :=
  fun i p x =>
    (if p.val = 0 then I_ref x
     else if p.val = 1 then I_ref x * pol_frac * Real.cos (pol_angle x)
     else I_ref x * pol_frac * Real.sin (pol_angle x)) *
      compute_spdust_scaling_numba (freqs.get i) freq_ref_I (freq_peak x) emissivity

/-- Method `SpDustPol.get_emission`. -/
noncomputable def spdustpol_get_emission {npix : ℕ} (m : SpDustPolData npix)
    (freqs : List ℝ) : Except PyErr (Fin freqs.length → Fin 3 → Fin npix → ℝ) :=
  (check_freq_input freqs).map fun _ =>
    compute_spdust_emission_pol_numba freqs m.I_ref m.freq_ref_I m.freq_peak
      m.emissivity m.pol_angle m.pol_frac

/-- Claim C9: for a valid positive frequency input, `SpDustPol.get_emission`
returns the `(nfreq, 3, npix)` array with, writing `s(f, x)` for the same
spinning-dust scaling as the intensity model and
`angle[x] = arctan2(angle_U[x], angle_Q[x])` fixed at construction: I entry
`I_ref[x] * s`, Q entry `I_ref[x] * polFrac * cos(angle[x]) * s`, U entry
`I_ref[x] * polFrac * sin(angle[x]) * s`. -/
theorem spdustpol_get_emission_formula {npix : ℕ}
    (map_I freq_peak angle_Q angle_U : Fin npix → ℝ)
    (freq_ref_I freq_ref_peak pol_frac : ℝ) (em : List (ℝ × ℝ)) (freqs : List ℝ)
    (hne : freqs ≠ []) (hpos : ∀ f ∈ freqs, 0 < f) :
    spdustpol_get_emission (mkSpDustPol map_I freq_ref_I em freq_peak
        freq_ref_peak pol_frac angle_Q angle_U) freqs =
      .ok (fun i p x =>
        if p.val = 0 then
          map_I x *
            compute_spdust_scaling_numba (freqs.get i) freq_ref_I
              (freq_peak x / freq_ref_peak) em
        else if p.val = 1 then
          map_I x * pol_frac * Real.cos (np_arctan2 (angle_U x) (angle_Q x)) *
            compute_spdust_scaling_numba (freqs.get i) freq_ref_I
              (freq_peak x / freq_ref_peak) em
        else
          map_I x * pol_frac * Real.sin (np_arctan2 (angle_U x) (angle_Q x)) *
            compute_spdust_scaling_numba (freqs.get i) freq_ref_I
              (freq_peak x / freq_ref_peak) em) := by
  simp only [spdustpol_get_emission, check_freq_input, if_neg hne, if_pos hpos,
    Except.map]
  congr 1
  funext i p x
  simp only [mkSpDustPol, mkSpDust, compute_spdust_emission_pol_numba, ite_mul]

theorem spdustpol_get_emission_formula_witness :
    (([(1:ℝ)] ≠ ([] : List ℝ)) ∧ (∀ f ∈ [(1:ℝ)], 0 < f)) ∧
    spdustpol_get_emission (mkSpDustPol (fun _ : Fin 1 => 1) 1 [((1:ℝ), (1:ℝ))]
        (fun _ => 1) 1 1 (fun _ => 1) (fun _ => 0)) [1] =
      .ok (fun i p x =>
        if p.val = 0 then
          (fun _ : Fin 1 => (1:ℝ)) x *
            compute_spdust_scaling_numba ([(1:ℝ)].get i) 1
              ((fun _ : Fin 1 => (1:ℝ)) x / 1) [((1:ℝ), (1:ℝ))]
        else if p.val = 1 then
          (fun _ : Fin 1 => (1:ℝ)) x * 1 *
            Real.cos (np_arctan2 ((fun _ : Fin 1 => (0:ℝ)) x)
              ((fun _ : Fin 1 => (1:ℝ)) x)) *
            compute_spdust_scaling_numba ([(1:ℝ)].get i) 1
              ((fun _ : Fin 1 => (1:ℝ)) x / 1) [((1:ℝ), (1:ℝ))]
        else
          (fun _ : Fin 1 => (1:ℝ)) x * 1 *
            Real.sin (np_arctan2 ((fun _ : Fin 1 => (0:ℝ)) x)
              ((fun _ : Fin 1 => (1:ℝ)) x)) *
            compute_spdust_scaling_numba ([(1:ℝ)].get i) 1
              ((fun _ : Fin 1 => (1:ℝ)) x / 1) [((1:ℝ), (1:ℝ))]) :=
  ⟨⟨by simp, by simp⟩,
    spdustpol_get_emission_formula (fun _ => 1) (fun _ => 1) (fun _ => 1)
      (fun _ => 0) 1 1 1 [((1:ℝ), (1:ℝ))] [1] (by simp) (by simp)⟩

/-- The state of a `DecorrelatedModifiedBlackBody` instance after `__init__`.
The two `Option` fields model the instance attribute slots `freq_ref_I` and
`freq_ref_P`: `none` means the attribute does not exist on the object and
reading it raises `AttributeError`. -/
structure DecorrMBB (npix : ℕ) where
  mbb : MBBData npix
  correlation_length : ℝ
  freq_ref_I : Option ℝ
  freq_ref_P : Option ℝ

/-- Constructor `DecorrelatedModifiedBlackBody.__init__`. The `@property`/`@….setter`
blocks nested inside `ModifiedBlackBody.__init__` only create objects bound to
local names of the constructor body; they are never assigned to the class or to
the instance, so no `freq_ref_I` / `freq_ref_P` attribute exists after
construction — hence the two `none` fields. -/
def mkDecorrelatedModifiedBlackBody {npix : ℕ}
    (map_I map_Q map_U : Fin npix → ℝ) (freq_ref_I freq_ref_P : ℝ)
    (map_mbb_index map_mbb_temperature : Fin npix → ℝ)
    (correlation_length : ℝ) : DecorrMBB npix :=
  ⟨mkModifiedBlackBody map_I map_Q map_U freq_ref_I freq_ref_P map_mbb_index
      map_mbb_temperature,
    correlation_length, none, none⟩

/-- The global numpy random generator: a stream of already-generated
standard-normal draws and the position of the next one. -/
structure Rng where
  stream : ℕ → ℝ
  pos : ℕ

/-- Model of `np.random.randn(n)`: consume the next `n` draws. -/
def randn (n : ℕ) (g : Rng) : (Fin n → ℝ) × Rng :=
  (fun i => g.stream (g.pos + i.val), ⟨g.stream, g.pos + n⟩)

/-- Method `DecorrelatedModifiedBlackBody.get_emission`: validate the frequencies,
read the (absent) `freq_ref_I` / `freq_ref_P` attributes, build the two
decorrelation pairs, draw one standard-normal vector for I and one for the
shared Q/U channel, and multiply the per-frequency factors onto the parent
emission (`decorr[..., None] * super().get_emission(freqs)` broadcasts the
parent result, which carries a leading singleton axis, to rank 4). Every error
path returns the generator state reached so far. -/
noncomputable def decorr_get_emission {npix : ℕ} (m : DecorrMBB npix)
    (freqs : List ℝ) (g : Rng) :
    Except PyErr (Fin 1 → Fin freqs.length → Fin 3 → Fin npix → ℝ) × Rng :=
  match check_freq_input freqs with
  | .error e => (.error e, g)
  | .ok _ =>
    match m.freq_ref_I with
    | none => (.error .attributeError, g)
    | some fI =>
      match m.freq_ref_P with
      | none => (.error .attributeError, g)
      | some fP =>
        match get_decorrelation_matrix fI freqs m.correlation_length with
        | .error e => (.error e, g)
        | .ok rI =>
          match get_decorrelation_matrix fP freqs m.correlation_length with
          | .error e => (.error e, g)
          | .ok rP =>
            let nfreqs := freqs.length
            let zI := randn nfreqs g
            if hI : rI.k = nfreqs then
              let extra_I : Fin nfreqs → ℝ := fun i =>
                rI.covar.mulVec (fun j => zI.1 (Fin.cast hI j)) (Fin.cast hI.symm i)
              let zP := randn nfreqs zI.2
              if hP : rP.k = nfreqs then
                let extra_P : Fin nfreqs → ℝ := fun i =>
                  rP.covar.mulVec (fun j => zP.1 (Fin.cast hP j)) (Fin.cast hP.symm i)
                match mbb_get_emission m.mbb freqs with
                | .error e => (.error e, zP.2)
                | .ok base =>
                  (.ok (fun _ i p x =>
                    (if p.val = 0 then rI.mean (Fin.cast hI.symm i) + extra_I i
                     else rP.mean (Fin.cast hP.symm i) + extra_P i) *
                      base.entry 0 i p x),
                    zP.2)
              else (.error .valueError, zP.2)
            else (.error .valueError, zI.2)

lemma decorr_attr_error {npix : ℕ} (map_I map_Q map_U : Fin npix → ℝ)
    (freq_ref_I freq_ref_P : ℝ) (map_mbb_index map_mbb_temperature : Fin npix → ℝ)
    (L : ℝ) (freqs : List ℝ) (g : Rng) (hne : freqs ≠ [])
    (hpos : ∀ f ∈ freqs, 0 < f) :
    decorr_get_emission (mkDecorrelatedModifiedBlackBody map_I map_Q map_U
        freq_ref_I freq_ref_P map_mbb_index map_mbb_temperature L) freqs g =
      (.error .attributeError, g) := by
  simp only [decorr_get_emission, check_freq_input, if_neg hne, if_pos hpos,
    mkDecorrelatedModifiedBlackBody]

/-- Claim C3: the nested property definitions inside
`ModifiedBlackBody.__init__` never attach to the instance, so after
construction neither `freq_ref_I` nor `freq_ref_P` exists, and every call of
`DecorrelatedModifiedBlackBody.get_emission` on a validated frequency input
fails with `AttributeError` before computing any emission (inputs rejected by
`check_freq_input` fail even earlier, with `InvalidFrequencyInput`). -/
theorem decorr_attrs_missing {npix : ℕ} (map_I map_Q map_U : Fin npix → ℝ)
    (freq_ref_I freq_ref_P : ℝ) (map_mbb_index map_mbb_temperature : Fin npix → ℝ)
    (L : ℝ) :
    (mkDecorrelatedModifiedBlackBody map_I map_Q map_U freq_ref_I freq_ref_P
        map_mbb_index map_mbb_temperature L).freq_ref_I = none ∧
    (mkDecorrelatedModifiedBlackBody map_I map_Q map_U freq_ref_I freq_ref_P
        map_mbb_index map_mbb_temperature L).freq_ref_P = none ∧
    ∀ (freqs : List ℝ) (g : Rng), freqs ≠ [] → (∀ f ∈ freqs, 0 < f) →
      decorr_get_emission (mkDecorrelatedModifiedBlackBody map_I map_Q map_U
          freq_ref_I freq_ref_P map_mbb_index map_mbb_temperature L) freqs g =
        (.error .attributeError, g) :=
  ⟨rfl, rfl, fun freqs g hne hpos =>
    decorr_attr_error map_I map_Q map_U freq_ref_I freq_ref_P map_mbb_index
      map_mbb_temperature L freqs g hne hpos⟩

theorem decorr_attrs_missing_witness :
    (([(1:ℝ)] ≠ ([] : List ℝ)) ∧ (∀ f ∈ [(1:ℝ)], 0 < f)) ∧
    ((mkDecorrelatedModifiedBlackBody (fun _ : Fin 1 => 1) (fun _ => 1)
        (fun _ => 1) 1 1 (fun _ => 1) (fun _ => 1) 1).freq_ref_I = none ∧
    (mkDecorrelatedModifiedBlackBody (fun _ : Fin 1 => 1) (fun _ => 1)
        (fun _ => 1) 1 1 (fun _ => 1) (fun _ => 1) 1).freq_ref_P = none ∧
    decorr_get_emission (mkDecorrelatedModifiedBlackBody (fun _ : Fin 1 => 1)
        (fun _ => 1) (fun _ => 1) 1 1 (fun _ => 1) (fun _ => 1) 1) [1]
        ⟨fun _ => 0, 0⟩ = (.error .attributeError, ⟨fun _ => 0, 0⟩)) :=
  ⟨⟨by simp, by simp⟩,
    (decorr_attrs_missing (fun _ => 1) (fun _ => 1) (fun _ => 1) 1 1 (fun _ => 1)
      (fun _ => 1) 1).1,
    (decorr_attrs_missing (fun _ => 1) (fun _ => 1) (fun _ => 1) 1 1 (fun _ => 1)
      (fun _ => 1) 1).2.1,
    (decorr_attrs_missing (fun _ => 1) (fun _ => 1) (fun _ => 1) 1 1 (fun _ => 1)
      (fun _ => 1) 1).2.2 [1] ⟨fun _ => 0, 0⟩ (by simp) (by simp)⟩

/-- Claim C10 counterexample: on an instance as built by `__init__` the call
fails with `AttributeError` before any random draw, so it does not "draw exactly
one standard-normal vector of length nfreq for the I channel and one for Q/U":
the generator position is unchanged (0 draws, not `2 * nfreq`), and no output
array is produced. -/
theorem decorr_draw_count_cex :
    (decorr_get_emission (mkDecorrelatedModifiedBlackBody (fun _ : Fin 1 => 1)
        (fun _ => 1) (fun _ => 1) 1 1 (fun _ => 1) (fun _ => 1) 1) [1]
        ⟨fun _ => 0, 0⟩).1 = .error .attributeError ∧
    (decorr_get_emission (mkDecorrelatedModifiedBlackBody (fun _ : Fin 1 => 1)
        (fun _ => 1) (fun _ => 1) 1 1 (fun _ => 1) (fun _ => 1) 1) [1]
        ⟨fun _ => 0, 0⟩).2.pos = 0 := by
  have h := decorr_attr_error (fun _ : Fin 1 => (1:ℝ)) (fun _ => 1)
    (fun _ => 1) 1 1 (fun _ => 1) (fun _ => 1) 1 [1] ⟨fun _ => 0, 0⟩
    (by simp) (by simp)
  rw [h]
  exact ⟨rfl, rfl⟩

/-- Claim C10 amended: `DecorrelatedModifiedBlackBody.get_emission` is a pure
function of the model state, the frequencies and the injected generator state:
two calls with equal generator states produce identical results; and on
instances as constructed (no reference-frequency attributes) every call fails
with `AttributeError` before drawing, leaving the generator untouched. -/
theorem decorr_deterministic {npix : ℕ} (map_I map_Q map_U : Fin npix → ℝ)
    (freq_ref_I freq_ref_P : ℝ) (map_mbb_index map_mbb_temperature : Fin npix → ℝ)
    (L : ℝ) (freqs : List ℝ) (g g' : Rng) (hg : g = g') :
    decorr_get_emission (mkDecorrelatedModifiedBlackBody map_I map_Q map_U
        freq_ref_I freq_ref_P map_mbb_index map_mbb_temperature L) freqs g =
      decorr_get_emission (mkDecorrelatedModifiedBlackBody map_I map_Q map_U
        freq_ref_I freq_ref_P map_mbb_index map_mbb_temperature L) freqs g' ∧
    (decorr_get_emission (mkDecorrelatedModifiedBlackBody map_I map_Q map_U
        freq_ref_I freq_ref_P map_mbb_index map_mbb_temperature L) freqs g).2 = g := by
  subst hg
  refine ⟨rfl, ?_⟩
  rw [decorr_get_emission]
  rcases hchk : check_freq_input freqs with e | v
  · rfl
  · rfl

theorem decorr_deterministic_witness :
    ((⟨fun _ => 0, 0⟩ : Rng) = ⟨fun _ => 0, 0⟩) ∧
    (decorr_get_emission (mkDecorrelatedModifiedBlackBody (fun _ : Fin 1 => 1)
        (fun _ => 1) (fun _ => 1) 1 1 (fun _ => 1) (fun _ => 1) 1) [1]
        ⟨fun _ => 0, 0⟩ =
      decorr_get_emission (mkDecorrelatedModifiedBlackBody (fun _ : Fin 1 => 1)
        (fun _ => 1) (fun _ => 1) 1 1 (fun _ => 1) (fun _ => 1) 1) [1]
        ⟨fun _ => 0, 0⟩ ∧
    (decorr_get_emission (mkDecorrelatedModifiedBlackBody (fun _ : Fin 1 => 1)
        (fun _ => 1) (fun _ => 1) 1 1 (fun _ => 1) (fun _ => 1) 1) [1]
        ⟨fun _ => 0, 0⟩).2 = ⟨fun _ => 0, 0⟩) :=
  ⟨rfl, decorr_deterministic (fun _ => 1) (fun _ => 1) (fun _ => 1) 1 1
    (fun _ => 1) (fun _ => 1) 1 [1] ⟨fun _ => 0, 0⟩ ⟨fun _ => 0, 0⟩ rfl⟩

end PySM
